import Mathlib

/-!
Verification development for the NNN book-extraction pipeline.

The Python sources are shallowly embedded as executable Lean definitions:
strings are Lean `String`s (lists of `Char`), regex substitutions of
`normalize_text` become single-pass recursive character scans with the same
leftmost-greedy semantics, the span-segmenter while-loops become
fuel-indexed structural recursions (the fuel supplied by the top-level
wrapper strictly dominates the loop counters, which advance by at least one
per iteration), and Python's JSON-ish runtime values become the inductive
type `Val`.  Font sizes and colors are only ever compared for equality in
the sources, so the floating-point size constants are represented by exact
integer tokens (sizes are scaled to tenths of a point).
-/

namespace NNN

/-- Whitespace characters as recognized by Python's `str.strip` and the
regex class `\s` on unicode strings. -/
def wsChar (c : Char) : Bool :=
  c == ' ' || c == '\t' || c == '\n' || c == '\r' || c == '\x0b' || c == '\x0c' ||
  c == '\x1c' || c == '\x1d' || c == '\x1e' || c == '\x1f' ||
  c == '\u0085' || c == '\u00a0' || c == '\u1680' ||
  (0x2000 <= c.toNat && c.toNat <= 0x200a) ||
  c == '\u2028' || c == '\u2029' || c == '\u202f' || c == '\u205f' || c == '\u3000'

/-- Characters removed by `normalize_text`'s first substitution: the regex
character ranges 200b-200f, 202a-202e, 2060-206f. -/
def invisChar (c : Char) : Bool :=
  (0x200b ≤ c.toNat && c.toNat ≤ 0x200f) ||
  (0x202a ≤ c.toNat && c.toNat ≤ 0x202e) ||
  (0x2060 ≤ c.toNat && c.toNat ≤ 0x206f)

/-- The dash/hyphen variants folded to an ASCII hyphen by `normalize_text`
(soft hyphen, hyphen, non-breaking hyphen, figure dash, en dash, em dash,
minus sign). -/
def dashChar (c : Char) : Bool :=
  c == '\u00ad' || c == '\u2010' || c == '\u2011' || c == '\u2012' ||
  c == '\u2013' || c == '\u2014' || c == '\u2212'

/-- Source characters of the smart-quote folding step of `normalize_text`. -/
def quoteSrcChar (c : Char) : Bool :=
  c == '\u2019' || c == '\u2018' || c == '\u201c' || c == '\u201d' ||
  c == '\u00b4' || c == '\u0060'

/-- The chained `.replace` calls folding smart quotes and apostrophe
variants to their ASCII equivalents (the ASCII apostrophe is written as
`Char.ofNat 39`). -/
def quoteMap (c : Char) : Char :=
  if c == '\u2019' || c == '\u2018' || c == '\u00b4' || c == '\u0060' then
    Char.ofNat 39
  else if c == '\u201c' || c == '\u201d' then '"' else c

/-- The substitution collapsing each run of ASCII hyphens to a single
hyphen (`"-+" -> "-"`).  The boolean argument records whether the previous
character was a hyphen of the same run. -/
def squashRun (afterDash : Bool) : List Char → List Char
  | [] => []
  | c :: cs =>
    if c = '-' then
      if afterDash then squashRun true cs else '-' :: squashRun true cs
    else c :: squashRun false cs

/-- The substitution deleting whitespace around hyphens
(`"\s*-\s*" -> "-"`) with Python's leftmost-greedy semantics: every maximal
group `whitespace* hyphen whitespace*` becomes one hyphen.  `afterDash`
records whether the last emitted character is a hyphen (so that pending
whitespace after it is dropped), `pend` buffers whitespace not yet known to
touch a hyphen. -/
def sub4s (afterDash : Bool) (pend : List Char) : List Char → List Char
  | [] => if afterDash then [] else pend
  | c :: cs =>
    if wsChar c then sub4s afterDash (pend ++ [c]) cs
    else if c = '-' then '-' :: sub4s true [] cs
    else (if afterDash then [] else pend) ++ c :: sub4s false [] cs

/-- Python `str.strip()` on a character list. -/
def stripChars (l : List Char) : List Char :=
  (((l.dropWhile fun c => wsChar c).reverse.dropWhile fun c => wsChar c)).reverse

/-- `normalize_text` on a character list: remove invisible characters, fold
dash variants to `-`, collapse hyphen runs, delete whitespace around
hyphens, fold smart quotes, strip. -/
def normalizeChars (l : List Char) : List Char :=
  stripChars
    ((sub4s false []
        (squashRun false
          ((l.filter fun c => !invisChar c).map fun c =>
            if dashChar c then '-' else c))).map quoteMap)

/-- Verification predicate: adjacent characters are never both hyphens
(the invariant established by the hyphen-run collapse). -/
def ddRel (a b : Char) : Prop := ¬(a = '-' ∧ b = '-')

/-- Verification predicate: whitespace is never adjacent to a hyphen (the
invariant established by the whitespace-around-hyphen deletion). -/
def whRel (a b : Char) : Prop :=
  ¬(a = '-' ∧ wsChar b = true) ∧ ¬(wsChar a = true ∧ b = '-')

/-- `normalize_text` from `extract_shortened_new_book_content.py`
(lines 29-58). -/
def normalize_text (s : String) : String :=
  String.mk (normalizeChars s.data)

/-- Python `str.strip()`. -/
def pyStrip (s : String) : String :=
  String.mk (stripChars s.data)

/-- Python `str.lower()` (ASCII case folding suffices for the repository's
data, which compares ASCII label and diagnosis strings). -/
def pyLower (s : String) : String :=
  String.mk (s.data.map Char.toLower)

/-- Python `str.replace(old, new)` for a single-character pattern and a
single-character replacement, which is a character map. -/
def replaceChar (a b : Char) (s : String) : String :=
  String.mk (s.data.map fun c => if c = a then b else c)

/-- Membership of a character in a string (Python's `c in s`). -/
def containsChar (s : String) (c : Char) : Bool :=
  s.data.contains c

/-- Python `sep.join(xs)`. -/
def joinWith (sep : String) : List String → String
  | [] => ""
  | [x] => x
  | x :: xs => x ++ sep ++ joinWith sep xs

/-- Python `" ".join(xs)`. -/
def joinSpace (xs : List String) : String :=
  joinWith " " xs

/-- Python `s.split(sep)` for a single-character separator (keeps empty
pieces, like Python's `str.split` with an explicit separator). -/
def splitOnChar (sep : Char) : List Char → List (List Char)
  | [] => [[]]
  | c :: cs =>
    match splitOnChar sep cs with
    | [] => [[]]
    | h :: t => if c = sep then [] :: h :: t else (c :: h) :: t

/-- Python `s.split(sep)` on strings. -/
def pySplit (s : String) (sep : Char) : List String :=
  (splitOnChar sep s.data).map String.mk

/-- `normalize_key` from `extract_shortened_new_book_content.py`
(lines 65-69): normalize the lowercased text, collapse hyphen runs again,
strip and replace spaces by underscores. -/
def normalize_key (t : String) : String :=
  replaceChar ' ' '_'
    (pyStrip (String.mk (squashRun false (normalize_text (pyLower t)).data)))

/-- `normalize_val` from `extract_shortened_new_book_content.py`
(lines 71-72). -/
def normalize_val (t : String) : String :=
  normalize_text (pyStrip t)

/-- Python runtime values as they occur in the repository's JSON data:
`None`, strings, integers and (possibly nested) lists. -/
inductive Val where
  | none_ : Val
  | str : String → Val
  | int : Int → Val
  | list : List Val → Val
deriving Repr

mutual

/-- Python `repr` for `Val` (string escaping inside `repr` of strings is
not modelled; no modelled input contains quote characters). -/
def pyRepr : Val → String
  | .none_ => "None"
  | .str s => String.mk (Char.ofNat 39 :: s.data ++ [Char.ofNat 39])
  | .int n => toString n
  | .list xs => "[" ++ pyReprList xs ++ "]"

/-- `repr` of the elements of a Python list, comma-separated. -/
def pyReprList : List Val → String
  | [] => ""
  | [x] => pyRepr x
  | x :: xs => pyRepr x ++ ", " ++ pyReprList xs

end

/-- Python `str(value)`. -/
def pyStr : Val → String
  | .str s => s
  | v => pyRepr v

/-- Python truthiness of a `Val` (`if value:`). -/
def pyTruthy : Val → Bool
  | .none_ => false
  | .str s => !(s == "")
  | .int n => !(n == 0)
  | .list xs => !xs.isEmpty

/-- Python `s.endswith(('.', '!', '?'))`. -/
def endsPunct (s : String) : Bool :=
  match s.data.getLast? with
  | some c => c == '.' || c == '!' || c == '?'
  | none => false

/-- A Python dict with string keys, as an insertion-ordered association
list. -/
abbrev JEntry : Type := List (String × Val)

/-- The loop body of `normalize_to_list`'s list branch
(`normalize_nnn_content.py` lines 94-99): string items are stripped,
`None` items skipped, other items stringified then stripped. -/
def toListStep (acc : List String) (it : Val) : List String :=
  match it with
  | .str s => acc ++ [pyStrip s]
  | .none_ => acc
  | other => acc ++ [pyStrip (pyStr other)]

/-- The `value is None or value == ""` guard used by
`normalize_to_list`, `normalize_to_string` and `consolidate_fields`. -/
def isNoneOrEmptyStr (v : Val) : Bool :=
  match v with
  | .none_ => true
  | .str s => s == ""
  | _ => false

/-- `NNNContentNormalizer.normalize_to_list` from
`normalize_nnn_content.py` (lines 88-104): coerce a value to a list of
stripped strings, dropping `None`, empty strings and
whitespace-only elements, stringifying non-string elements. -/
def normalizeToList (v : Val) : List String :=
  match v with
  | .none_ => []
  | .str s =>
    if s == "" then []
    else if pyStrip s == "" then [] else [pyStrip s]
  | .list items => (items.foldl toListStep []).filter fun x => !(x == "")
  | .int n =>
    if pyStrip (pyStr (.int n)) == "" then [] else [pyStrip (pyStr (.int n))]

/-- `NNNContentNormalizer.normalize_to_string` from
`normalize_nnn_content.py` (lines 106-122): coerce a value to a single
string; a non-empty list is joined with `" "` when some string element
ends in terminal punctuation, and with `", "` otherwise. -/
def normalizeToString (v : Val) : String :=
  match v with
  | .none_ => ""
  | .str s => if s == "" then "" else pyStrip s
  | .list items =>
    if items.isEmpty then ""
    else if items.any fun it =>
        match it with
        | .str s => endsPunct (pyStrip s)
        | _ => false then
      joinSpace ((items.filter pyTruthy).map fun it => pyStrip (pyStr it))
    else
      joinWith ", " ((items.filter pyTruthy).map fun it => pyStrip (pyStr it))
  | .int n => pyStrip (pyStr (.int n))

/-- The accumulation phase of `NNNContentNormalizer.consolidate_fields`
(`normalize_nnn_content.py` lines 126-138): values of the present,
non-empty synonym keys, each coerced to a list, concatenated in
synonym-list order. -/
def consolidatedValues (entry : JEntry) (sourceFields : List String) : List String :=
  sourceFields.foldl (fun acc sf =>
    match List.lookup sf entry with
    | some v => if isNoneOrEmptyStr v then acc else acc ++ normalizeToList v
    | none => acc) []

/-- The deduplication phase of `NNNContentNormalizer.consolidate_fields`
(`normalize_nnn_content.py` lines 147-153): keep the first occurrence of
each string, in order. -/
def dedupFirstSeen : List String → List String → List String
  | [], _ => []
  | x :: xs, seen =>
    if seen.contains x then dedupFirstSeen xs seen
    else x :: dedupFirstSeen xs (x :: seen)

/-- `NNNContentNormalizer.consolidate_fields` from
`normalize_nnn_content.py` (lines 124-155), without the statistics
bookkeeping (which does not influence the returned value). -/
def consolidateFields (entry : JEntry) (sourceFields : List String) : List String :=
  dedupFirstSeen (consolidatedValues entry sourceFields) []

/-- `to_list` from `normalize_nnn_json.py` (lines 15-21): keep only string
elements of a list, lowercased; `None`/empty string become `[]`; any other
value is stringified and lowercased. -/
def toListJ (v : Val) : List String :=
  match v with
  | .list xs =>
    xs.filterMap fun it =>
      match it with
      | .str s => some (pyLower s)
      | _ => none
  | .none_ => []
  | .str s => if s == "" then [] else [pyLower s]
  | .int n => [pyLower (pyStr (.int n))]

/-- `to_str` from `normalize_nnn_json.py` (lines 23-30): join the string
elements of a list lowercased with spaces; `None` becomes `""`; any other
value is stringified and lowercased. -/
def toStrJ (v : Val) : String :=
  match v with
  | .list xs =>
    joinSpace (xs.filterMap fun it =>
      match it with
      | .str s => some (pyLower s)
      | _ => none)
  | .none_ => ""
  | .str s => pyLower s
  | .int n => pyLower (pyStr (.int n))

/-- `get_field_value` from `normalize_nnn_json.py` (lines 33-46), without
the statistics bookkeeping: the plural key takes priority over the
singular key; a missing field yields the empty list. -/
def getFieldValue (entry : JEntry) (base : String) : Val :=
  match List.lookup (base ++ "s") entry with
  | some v => v
  | none =>
    match List.lookup base entry with
    | some v => v
    | none => .list []

/-- `normalize_entry` from `normalize_nnn_json.py` (lines 48-56): the
returned dict literal with its seven keys in source order. -/
def normalizeEntryJson (entry : JEntry) : JEntry :=
  [("diagnosis", .str (toStrJ ((List.lookup "diagnosis" entry).getD (.str "")))),
   ("definition", .str (toStrJ ((List.lookup "definition" entry).getD (.str "")))),
   ("defining_characteristics",
     .list ((toListJ (getFieldValue entry "defining_characteristic")).map .str)),
   ("related_factors",
     .list ((toListJ (getFieldValue entry "related_factor")).map .str)),
   ("risk_factors",
     .list ((toListJ (getFieldValue entry "risk_factor")).map .str)),
   ("suggested_outcomes",
     .list ((toListJ (getFieldValue entry "suggested_noc_outcome")).map .str)),
   ("suggested_interventions",
     .list ((toListJ (getFieldValue entry "suggested_nic_intervention")).map .str))]

/-- The error message recorded by `NNNContentNormalizer.normalize_entry`'s
exception handler (`normalize_nnn_content.py` line 283). -/
def errMsg (e : JEntry) (m : String) : String :=
  "Error normalizing entry " ++
    pyStr ((List.lookup "diagnosis" e).getD (.str "Unknown")) ++ ": " ++ m

/-- `NNNContentNormalizer.normalize_data` together with the `try/except`
structure of `normalize_entry` (`normalize_nnn_content.py` lines 202-302):
the body of the `try` block is abstracted as a fallible function `body`;
on success its result is appended, on failure the original entry is passed
through unchanged and the error message is appended to the run-level error
log (`self.stats['errors']`). -/
def ndwStep (body : JEntry → Except String JEntry)
    (acc : List JEntry × List String) (e : JEntry) : List JEntry × List String :=
  match body e with
  | .ok v => (acc.1 ++ [v], acc.2)
  | .error m => (acc.1 ++ [e], acc.2 ++ [errMsg e m])

/-- The per-record loop of `normalize_data` over `ndwStep`. -/
def normalizeDataWith (body : JEntry → Except String JEntry)
    (data : List JEntry) : List JEntry × List String :=
  data.foldl (ndwStep body) ([], [])

/-- A text span of `extract_shortened_new_book_content.py` (lines 74-87):
text, font, size, color and 1-based page number.  Sizes are scaled to
tenths of a point (the sources compare them only for equality). -/
structure SSpan where
  text : String
  font : String
  size : Nat
  color : Nat
  page : Nat
deriving DecidableEq, Repr

/-- Style constants of `extract_shortened_new_book_content.py`
(lines 15-27). -/
def DIAGNOSIS_FONT : String := "HelveticaNeueLTStd-Bd"

/-- Diagnosis heading size (14.0 pt, scaled to tenths). -/
def DIAGNOSIS_SIZE : Nat := 140

/-- Diagnosis heading color. -/
def DIAGNOSIS_COLOR : Nat := 16777215

/-- Subsection label size (10.0 pt, scaled to tenths). -/
def SUBSECTION_SIZE : Nat := 100

/-- Subsection label color. -/
def SUBSECTION_COLOR : Nat := 4153748

/-- Body content fonts. -/
def CONTENT_FONTS : List String :=
  ["MinionPro-Regular", "MinionPro-Bold", "MinionPro-It"]

/-- Body content size (9.5 pt, scaled to tenths). -/
def CONTENT_SIZE : Nat := 95

/-- Body content color. -/
def CONTENT_COLOR : Nat := 2301728

/-- The normalized heading text computed by the scan loop:
`normalize_text(span["text"].lower().strip())`. -/
def headingTextOf (s : SSpan) : String :=
  normalize_text (pyStrip (pyLower s.text))

/-- The diagnosis-heading style test (font, size and color only). -/
def isDiagnosisHeadingStyle (s : SSpan) : Bool :=
  s.font == DIAGNOSIS_FONT && s.size == DIAGNOSIS_SIZE && s.color == DIAGNOSIS_COLOR

/-- The in-record next-diagnosis test of the inner loop (lines 105-108):
heading style AND membership of the normalized text in the diagnosis
set. -/
def isNextDiagnosis (d : List String) (s : SSpan) : Bool :=
  isDiagnosisHeadingStyle s && d.contains (headingTextOf s)

/-- The subsection-label style test (line 112): size and color only. -/
def isSubsectionSpan (s : SSpan) : Bool :=
  s.size == SUBSECTION_SIZE && s.color == SUBSECTION_COLOR

/-- The content style test (lines 176-179). -/
def isContentSpan (s : SSpan) : Bool :=
  CONTENT_FONTS.contains s.font && s.size == CONTENT_SIZE && s.color == CONTENT_COLOR

/-- The `Client Will (Specify Time Frame)` line style test
(lines 133-136). -/
def isClientWillSpan (s : SSpan) : Bool :=
  s.font == "HelveticaNeueLTStd-Bd" && s.size == 95 && s.color == 10242925

/-- The bullet-glyph style test inside the client-outcomes sub-loop
(line 149; 15.0 pt scaled to tenths). -/
def isBulletSpan (s : SSpan) : Bool :=
  s.font == "MinionPro-Regular" && s.size == 150 && s.color == 2301728

/-- The outcome-content style test inside the client-outcomes sub-loop
(line 153). -/
def isOutcomeContentSpan (s : SSpan) : Bool :=
  s.font == "MinionPro-Regular" && s.size == 95 && s.color == 2301728

/-- A value stored in a raw record: a scalar string, a list of strings, or
the two-key client-outcomes map. -/
inductive EVal where
  | s : String → EVal
  | i : Int → EVal
  | l : List String → EVal
  | co : String → List String → EVal
deriving DecidableEq, Repr

/-- A raw record, as the insertion-ordered key/value list of the Python
dict `entry` (initially `{"diagnosis": ..., "page_num": ...}`). -/
abbrev Entry : Type := List (String × EVal)

/-- Assignment `entry[k] = v` into a Python dict: replace in place if the
key exists (keeping its position), else append. -/
def upsert (e : Entry) (k : String) (v : EVal) : Entry :=
  if e.any fun kv => kv.1 == k then
    e.map fun kv => if kv.1 == k then (k, v) else kv
  else e ++ [(k, v)]

/-- The same-style, same-page adjacency merge used for both label and
content spans (lines 114-120, 156-163, 181-188): starting at index `j`,
append the texts of consecutive spans satisfying `ok`, separated by single
spaces, and return the index past the merged group together with the
accumulated text. -/
def mergeGroup (spans : List SSpan) (ok : SSpan → Bool) :
    Nat → Nat → String → Nat × String
  | 0, j, acc => (j, acc)
  | fuel + 1, j, acc =>
    match spans[j]? with
    | some sp =>
      if ok sp then mergeGroup spans ok fuel (j + 1) (acc ++ " " ++ sp.text)
      else (j, acc)
    | none => (j, acc)

/-- The content-capture sub-loop (lines 174-190): consume maximal
same-page merged groups of content-styled spans, `normalize_val`-ing each
merged group. -/
def contentLoop (spans : List SSpan) :
    Nat → Nat → List String → Nat × List String
  | 0, i, acc => (i, acc)
  | fuel + 1, i, acc =>
    match spans[i]? with
    | some sp =>
      if isContentSpan sp then
        let m := mergeGroup spans
          (fun s2 => isContentSpan s2 && s2.page == sp.page)
          (spans.length + 1) (i + 1) sp.text
        contentLoop spans fuel m.1 (acc ++ [normalize_val m.2])
      else (i, acc)
    | none => (i, acc)

/-- The client-outcomes collection sub-loop (lines 140-167): stop at the
next subsection or diagnosis heading, skip bullets, merge and collect
outcome content lines, skip anything else. -/
def outcomesLoop (d : List String) (spans : List SSpan) :
    Nat → Nat → List String → Nat × List String
  | 0, i, acc => (i, acc)
  | fuel + 1, i, acc =>
    match spans[i]? with
    | some sp =>
      if isSubsectionSpan sp || isNextDiagnosis d sp then (i, acc)
      else if isBulletSpan sp then outcomesLoop d spans fuel (i + 1) acc
      else if isOutcomeContentSpan sp then
        let m := mergeGroup spans
          (fun s2 => isOutcomeContentSpan s2 && s2.page == sp.page)
          (spans.length + 1) (i + 1) sp.text
        outcomesLoop d spans fuel m.1 (acc ++ [normalize_val m.2])
      else outcomesLoop d spans fuel (i + 1) acc
    | none => (i, acc)

/-- The joined content string of lines 193: space-join the captured
units, replace newlines by spaces, strip. -/
def joinedContent (content : List String) : String :=
  pyStrip (replaceChar '\n' ' ' (joinSpace content))

/-- The semicolon split of line 195: split the joined string on
semicolons, drop whitespace-only pieces, `normalize_val` each piece. -/
def splitSemis (joined : String) : List String :=
  ((pySplit joined ';').filter fun c => !(pyStrip c == "")).map normalize_val

/-- The value-shape storage rule (lines 192-199): no captured content
yields no field; a joined string containing a semicolon yields the
semicolon split (regardless of how many units were captured); one captured
unit yields a scalar; several yield the list of units. -/
def storeContentValue : List String → Option EVal
  | [] => none
  | c0 :: rest =>
    let joined := joinedContent (c0 :: rest)
    if containsChar joined ';' then some (.l (splitSemis joined))
    else
      match rest with
      | [] => some (.s c0)
      | _ => some (.l ((c0 :: rest).map normalize_val))

/-- The in-record scan loop of `extract_shortened_new_book_content.py`
(lines 102-201).  Returns the cursor position at which the loop stopped
(unchanged at a next-diagnosis or stop-marker break, as in the source) and
the accumulated entry. -/
def innerLoop (d : List String) (spans : List SSpan) :
    Nat → Nat → Entry → Nat × Entry
  | 0, i, entry => (i, entry)
  | fuel + 1, i, entry =>
    match spans[i]? with
    | none => (i, entry)
    | some sp =>
      if isNextDiagnosis d sp then (i, entry)
      else if isSubsectionSpan sp then
        let m := mergeGroup spans
          (fun s2 => isSubsectionSpan s2 && s2.page == sp.page)
          (spans.length + 1) (i + 1) sp.text
        let norm := normalize_key m.2
        if norm.startsWith "nursing_interventions_and" then (i, entry)
        else if norm == "client_outcomes" then
          match spans[m.1]? with
          | some cw =>
            if isClientWillSpan cw then
              let o := outcomesLoop d spans (spans.length + 1) (m.1 + 1) []
              innerLoop d spans fuel o.1
                (upsert entry norm (.co (normalize_val cw.text) (o.2.map normalize_val)))
            else innerLoop d spans fuel m.1 entry
          | none => innerLoop d spans fuel m.1 entry
        else
          let c := contentLoop spans (spans.length + 1) m.1 []
          match storeContentValue c.2 with
          | some v => innerLoop d spans fuel c.1 (upsert entry norm v)
          | none => innerLoop d spans fuel c.1 entry
      else innerLoop d spans fuel (i + 1) entry

/-- The outer scan loop of `extract_shortened_new_book_content.py`
(lines 91-219): a record is opened whenever the normalized lowercased span
text is a member of the diagnosis set (no style test), and the finished
entry is appended only when it has more than the two identity keys. -/
def seekLoop (d : List String) (spans : List SSpan) :
    Nat → Nat → List Entry → List Entry
  | 0, _, results => results
  | fuel + 1, i, results =>
    match spans[i]? with
    | none => results
    | some sp =>
      if d.contains (headingTextOf sp) then
        let entry0 : Entry :=
          [("diagnosis", .s (normalize_val sp.text)), ("page_num", .i (sp.page : Int))]
        let r := innerLoop d spans (spans.length + 1) (i + 1) entry0
        seekLoop d spans fuel r.1
          (if 2 < r.2.length then results ++ [r.2] else results)
      else seekLoop d spans fuel (i + 1) results

/-- The whole span-segmentation pass of
`extract_shortened_new_book_content.py` over a span list, given the
normalized Expected-Identity Set `d`. -/
def segmentShortened (d : List String) (spans : List SSpan) : List Entry :=
  seekLoop d spans (spans.length + 1) 0 []

/-- Style constants of `extract_raw_NNN_content.py` (lines 25-38).  The
floating-point sizes are distinct tokens compared only for equality; they
are represented by their values in hundredths of a point, truncated. -/
def RAW_HEADING_SIZE : Nat := 2088

/-- Body content color of the raw book. -/
def RAW_CONTENT_COLOR : Nat := 0

/-- Subsection font of the raw book. -/
def RAW_SUBSECTION_FONT : String := "font0000000022986fa2"

/-- Subsection size of the raw book (9.36 pt). -/
def RAW_SUBSECTION_SIZE : Nat := 936

/-- Subsection color of the raw book. -/
def RAW_SUBSECTION_COLOR : Nat := 8388608

/-- First outlier subsection size (11.52 pt). -/
def RAW_OUTLIER_SIZE : Nat := 1152

/-- First outlier subsection color. -/
def RAW_OUTLIER_COLOR : Nat := 11815958

/-- Second outlier subsection size (15.12 pt). -/
def RAW_OUTLIER2_SIZE : Nat := 1512

/-- Second outlier subsection color. -/
def RAW_OUTLIER2_COLOR : Nat := 2907757

/-- The special subsection labels accepted under outlier2 formatting
(`extract_raw_NNN_content.py` line 116). -/
def specialSubsectionLabels : List String :=
  ["definition", "defining characteristics", "related factors",
   "risk factors", "suggested noc outcomes", "suggested nic interventions"]

/-- The excluded subsection keys (`extract_raw_NNN_content.py`
lines 197-204). -/
def excludedSubsections : List String :=
  ["nursing_interventions_and", "nursing_intervention_and",
   "nursing_interventions_and_", "and_references", "client_outcomes",
   "patient_outcomes"]

/-- A heading found in step 2 of `extract_raw_NNN_content.py`: text, span
index and page. -/
structure RHead where
  text : String
  idx : Nat
  page : Nat
deriving DecidableEq, Repr

/-- The three subsection kinds of step 2. -/
inductive RSubType where
  | regular : RSubType
  | outlier : RSubType
  | special2 : RSubType
deriving DecidableEq, Repr

/-- A subsection found in step 2 of `extract_raw_NNN_content.py`. -/
structure RSub where
  label : String
  idx : Nat
  page : Nat
  kind : RSubType
deriving DecidableEq, Repr

/-- The diagnosis-heading test of `extract_raw_NNN_content.py`
(lines 122-126): heading size, content color, non-empty text AND
membership of the lowercased stripped text in the diagnosis set. -/
def isRawHeading (d : List String) (s : SSpan) : Bool :=
  s.size == RAW_HEADING_SIZE && s.color == RAW_CONTENT_COLOR &&
    !(s.text == "") && d.contains (pyStrip (pyLower s.text))

/-- The regular-subsection test (lines 137-140). -/
def isRawRegularSub (s : SSpan) : Bool :=
  s.size == RAW_SUBSECTION_SIZE && s.font == RAW_SUBSECTION_FONT &&
    s.color == RAW_SUBSECTION_COLOR && !(s.text == "")

/-- The outlier-subsection test (lines 152-154). -/
def isRawOutlierSub (s : SSpan) : Bool :=
  s.size == RAW_OUTLIER_SIZE && s.color == RAW_OUTLIER_COLOR && !(s.text == "")

/-- The special outlier2-subsection test (lines 166-169). -/
def isRawSpecial2Sub (s : SSpan) : Bool :=
  s.size == RAW_OUTLIER2_SIZE && s.color == RAW_OUTLIER2_COLOR &&
    !(s.text == "") && specialSubsectionLabels.contains (pyStrip (pyLower s.text))

/-- Step 2 of `extract_raw_NNN_content.py` (lines 118-178): classify each
span (in order, with its index) as heading or subsection via the `elif`
chain. -/
def classifyRawAux (d : List String) : List SSpan → Nat → List RHead × List RSub
  | [], _ => ([], [])
  | s :: rest, idx =>
    let r := classifyRawAux d rest (idx + 1)
    if isRawHeading d s then (⟨s.text, idx, s.page⟩ :: r.1, r.2)
    else if isRawRegularSub s then (r.1, ⟨s.text, idx, s.page, .regular⟩ :: r.2)
    else if isRawOutlierSub s then (r.1, ⟨s.text, idx, s.page, .outlier⟩ :: r.2)
    else if isRawSpecial2Sub s then (r.1, ⟨s.text, idx, s.page, .special2⟩ :: r.2)
    else r

/-- Step 2 over a whole span list (indices start at 0). -/
def classifyRaw (d : List String) (spans : List SSpan) : List RHead × List RSub :=
  classifyRawAux d spans 0

/-- Stable insertion into an index-sorted heading list. -/
def insertByIdx (h : RHead) : List RHead → List RHead
  | [] => [h]
  | x :: xs => if h.idx ≤ x.idx then h :: x :: xs else x :: insertByIdx h xs

/-- `headings.sort(key=lambda x: x["index"])` (line 191) as a stable
insertion sort; classification emits headings in increasing index order,
so this is in fact the identity on its inputs here. -/
def sortByIdx : List RHead → List RHead
  | [] => []
  | x :: xs => insertByIdx x (sortByIdx xs)

/-- `sub_label.lower().replace(" ", "_")` (lines 219, 256, 258). -/
def rawKey (lbl : String) : String :=
  replaceChar ' ' '_' (pyLower lbl)

/-- The heading style test used when filtering content spans (line 237). -/
def isRawHeadingStyle (s : SSpan) : Bool :=
  s.size == RAW_HEADING_SIZE && s.color == RAW_CONTENT_COLOR

/-- The subsection style test used when filtering content spans
(lines 238-239). -/
def isRawSubStyle (s : SSpan) : Bool :=
  (s.size == RAW_SUBSECTION_SIZE && s.color == RAW_SUBSECTION_COLOR) ||
  (s.size == RAW_OUTLIER_SIZE && s.color == RAW_OUTLIER_COLOR)

/-- The outlier2 style test used when filtering content spans (line 242). -/
def isOutlier2Style (s : SSpan) : Bool :=
  s.size == RAW_OUTLIER2_SIZE && s.color == RAW_OUTLIER2_COLOR

/-- The content texts collected for one subsection (lines 232-249): the
spans with indices in `[start, stop)` that are not outlier2-styled, not
heading- or subsection-styled, non-empty, and of content color. -/
def rawContentTexts (spans : List SSpan) (start stop : Nat) : List String :=
  (((spans.take stop).drop start).filter fun s =>
    !isOutlier2Style s && !isRawHeadingStyle s && !isRawSubStyle s &&
      !(s.text == "") && s.color == RAW_CONTENT_COLOR).map fun s => s.text

/-- The per-subsection loop of step 3 (lines 215-258), accumulating
`section_data`: excluded labels and plain-outlier subsections are skipped;
the content range of a subsection ends at the next subsection of the same
section (skipped or not) or at the section end; a non-empty label with
non-empty content stores the semicolon-split list or the joined string. -/
def sectionData (spans : List SSpan) : List RSub → Nat → Entry → Entry
  | [], _, acc => acc
  | sub :: rest, endIdx, acc =>
    if !(sub.label == "") && excludedSubsections.contains (rawKey sub.label) then
      sectionData spans rest endIdx acc
    else if sub.kind == .outlier then sectionData spans rest endIdx acc
    else
      let contentEnd := match rest with
        | next :: _ => next.idx
        | [] => endIdx
      let texts := rawContentTexts spans (sub.idx + 1) contentEnd
      if !(sub.label == "") && !texts.isEmpty then
        let content := pyStrip (replaceChar '\n' ' ' (joinSpace texts))
        let v : EVal :=
          if containsChar content ';' then
            .l (((pySplit content ';').filter fun c => !(pyStrip c == "")).map pyStrip)
          else .s content
        sectionData spans rest endIdx (upsert acc (rawKey sub.label) v)
      else sectionData spans rest endIdx acc

/-- The per-heading loop of step 3 (lines 206-264): for each heading, the
section runs to the next heading (or the end of the span list), its
subsections are those with indices in the section, and the record —
identity keys merged with `section_data` — is appended unconditionally. -/
def rawRecordsLoop (spans : List SSpan) (subs : List RSub) : List RHead → List Entry
  | [] => []
  | h :: hrest =>
    let endIdx := match hrest with
      | h2 :: _ => h2.idx
      | [] => spans.length
    let secSubs := subs.filter fun sb => h.idx + 1 ≤ sb.idx && sb.idx < endIdx
    let sd := sectionData spans secSubs endIdx []
    (sd.foldl (fun e kv => upsert e kv.1 kv.2)
        [("diagnosis", EVal.s h.text), ("page_num", EVal.i (h.page : Int))]) ::
      rawRecordsLoop spans subs hrest

/-- Steps 2-3 of `extract_raw_NNN_content.py`: classify, sort headings by
index, and build the `diagnosis_sections` list. -/
def buildRawSections (d : List String) (spans : List SSpan) : List Entry :=
  let c := classifyRaw d spans
  rawRecordsLoop spans c.2 (sortByIdx c.1)

end NNN

namespace NNN

/-! ### Properties of `stripChars` (Python `str.strip`) -/

theorem head_dropWhile_not (p : Char → Bool) :
    ∀ (l : List Char) (c : Char), (l.dropWhile p).head? = some c → p c = false := by
  intro l
  induction l with
  | nil => intro c h; simp [List.dropWhile] at h
  | cons a t ih =>
    intro c h
    rw [List.dropWhile_cons] at h
    cases hpa : p a with
    | true =>
      rw [hpa] at h
      simp at h
      exact ih c h
    | false =>
      rw [hpa] at h
      simp at h
      subst h
      exact hpa

theorem dropWhile_id_of_head (p : Char → Bool) (l : List Char)
    (h : ∀ c, l.head? = some c → p c = false) : l.dropWhile p = l := by
  cases l with
  | nil => rfl
  | cons a t =>
    have := h a rfl
    simp [List.dropWhile, this]

theorem head_stripChars (l : List Char) (c : Char)
    (h : (stripChars l).head? = some c) : wsChar c = false := by
  unfold stripChars at h
  rw [List.head?_reverse] at h
  have hsuff : ((l.dropWhile fun c => wsChar c).reverse.dropWhile fun c => wsChar c) <:+
      (l.dropWhile fun c => wsChar c).reverse := List.dropWhile_suffix _
  rcases hsuff with ⟨pre, hpre⟩
  have h2 : (l.dropWhile fun c => wsChar c).reverse.getLast? = some c := by
    rw [← hpre, List.getLast?_append, h]
    rfl
  rw [List.getLast?_reverse] at h2
  exact head_dropWhile_not _ l c h2

theorem getLast_stripChars (l : List Char) (c : Char)
    (h : (stripChars l).getLast? = some c) : wsChar c = false := by
  unfold stripChars at h
  rw [List.getLast?_reverse] at h
  exact head_dropWhile_not _ _ c h

theorem stripChars_id (l : List Char)
    (hh : ∀ c, l.head? = some c → wsChar c = false)
    (hl : ∀ c, l.getLast? = some c → wsChar c = false) : stripChars l = l := by
  unfold stripChars
  rw [dropWhile_id_of_head _ l hh]
  rw [dropWhile_id_of_head _ l.reverse (fun c hc => hl c (by rwa [List.head?_reverse] at hc))]
  exact l.reverse_reverse

theorem stripChars_idem (l : List Char) : stripChars (stripChars l) = stripChars l :=
  stripChars_id _ (head_stripChars l) (getLast_stripChars l)

theorem pyStrip_idem (s : String) : pyStrip (pyStrip s) = pyStrip s := by
  unfold pyStrip
  rw [show (String.mk (stripChars s.data)).data = stripChars s.data from rfl]
  rw [stripChars_idem]

end NNN

namespace NNN

/-! ### C9: the list-shape coercion only produces non-empty trimmed strings -/

theorem mem_toListStep_fold (items : List Val) :
    ∀ (acc : List String) (x : String), x ∈ items.foldl toListStep acc →
      x ∈ acc ∨ ∃ y, x = pyStrip y := by
  induction items with
  | nil => intro acc x h; exact .inl h
  | cons it rest ih =>
    intro acc x h
    rw [List.foldl_cons] at h
    rcases ih (toListStep acc it) x h with hacc | hstrip
    · cases it with
      | str s =>
        rcases List.mem_append.mp hacc with h1 | h2
        · exact .inl h1
        · exact .inr ⟨s, by simpa using h2⟩
      | none_ => exact .inl hacc
      | int n =>
        rcases List.mem_append.mp hacc with h1 | h2
        · exact .inl h1
        · exact .inr ⟨pyStr (.int n), by simpa using h2⟩
      | list xs =>
        rcases List.mem_append.mp hacc with h1 | h2
        · exact .inl h1
        · exact .inr ⟨pyStr (.list xs), by simpa using h2⟩
    · exact .inr hstrip

/-- C9: For every input value, `normalize_to_list` returns a list
containing only non-empty, whitespace-trimmed strings: `None`, empty
strings, and elements that are empty after trimming are dropped, and
non-string elements are stringified — so no list-shaped canonical field
value ever contains an empty string. -/
theorem normalizeToList_elems_trimmed_nonempty (v : Val) (x : String)
    (h : x ∈ normalizeToList v) : ¬(x = "") ∧ pyStrip x = x := by
  have key : ¬(x = "") ∧ ∃ y, x = pyStrip y := by
    cases v with
    | none_ => simp [normalizeToList] at h
    | str s =>
      by_cases hs : s == ""
      · simp [normalizeToList, hs] at h
      · by_cases hps : pyStrip s == ""
        · simp [normalizeToList, hs, hps] at h
        · rw [normalizeToList, if_neg (by simpa using hs), if_neg (by simpa using hps)] at h
          simp at h
          subst h
          exact ⟨by simpa using hps, s, rfl⟩
    | list items =>
      rw [normalizeToList] at h
      rw [List.mem_filter] at h
      rcases h with ⟨hmem, hne⟩
      rcases mem_toListStep_fold items [] x hmem with hcontra | hstrip
      · simp at hcontra
      · exact ⟨by simpa using hne, hstrip⟩
    | int n =>
      by_cases hn : pyStrip (pyStr (.int n)) == ""
      · simp [normalizeToList, hn] at h
      · rw [normalizeToList, if_neg (by simpa using hn)] at h
        simp at h
        subst h
        exact ⟨by simpa using hn, pyStr (.int n), rfl⟩
  rcases key with ⟨hne, y, rfl⟩
  exact ⟨hne, pyStrip_idem y⟩

/-- C9 witness: a concrete run of `normalize_to_list`. -/
theorem normalizeToList_elems_trimmed_nonempty_witness :
    ¬("a" = "") ∧ pyStrip "a" = "a" :=
  normalizeToList_elems_trimmed_nonempty
    (.list [.str " a ", .none_, .str "  "]) "a" (by decide)

/-! ### C5: the sentence-like join separator -/

/-- C5: evaluating `normalize_to_string` at a list with a
sentence-like element shows the code joins with a single space `" "`, not
with `". "` as its own comment (and the spec) state. -/
theorem normalizeToString_sentence_join_is_space :
    normalizeToString (.list [.str "The cat sat", .str "It purred."]) =
      "The cat sat It purred." ∧
    ¬(normalizeToString (.list [.str "The cat sat", .str "It purred."]) =
      "The cat sat. It purred.") := by
  constructor
  · rfl
  · intro h
    rw [show normalizeToString (.list [.str "The cat sat", .str "It purred."]) =
      "The cat sat It purred." from rfl] at h
    exact absurd h (by decide)

/-! ### C7: semicolon split priority -/

/-- C7 (amended): whenever the joined content string contains a
semicolon, the stored value is the semicolon split — regardless of how
many content units were captured — and the two content units
`"a"`, `"b;c"` yield `["a b", "c"]` (the units are joined with a space
before splitting, so the claimed `["a", "b", "c"]` is not produced). -/
theorem storeContentValue_semicolon_priority :
    (∀ (content : List String), ¬(content = []) →
      containsChar (joinedContent content) ';' = true →
      storeContentValue content = some (.l (splitSemis (joinedContent content)))) ∧
    storeContentValue ["a", "b;c"] = some (.l ["a b", "c"]) := by
  constructor
  · intro content hne hc
    cases content with
    | nil => exact absurd rfl hne
    | cons c0 rest => simp [storeContentValue, hc]
  · decide

/-- C7 witness: the general semicolon-priority rule applied at a concrete
single-unit content list. -/
theorem storeContentValue_semicolon_priority_witness :
    storeContentValue ["x;y", "z"] =
      some (.l (splitSemis (joinedContent ["x;y", "z"]))) :=
  storeContentValue_semicolon_priority.1 ["x;y", "z"] (by decide) (by decide)

set_option maxRecDepth 20000 in
/-- C7 counterexample: the claimed output `["a", "b", "c"]` is wrong at
the claim's own example; the segmenter stores `["a b", "c"]`. -/
theorem segmentShortened_semicolon_counterexample :
    segmentShortened ["anxiety"]
      [⟨"Anxiety", "HelveticaNeueLTStd-Bd", 140, 16777215, 1⟩,
       ⟨"Definition", "SomeFont", 100, 4153748, 1⟩,
       ⟨"a", "MinionPro-Regular", 95, 2301728, 1⟩,
       ⟨"b;c", "MinionPro-Regular", 95, 2301728, 2⟩] =
      [[("diagnosis", .s "Anxiety"), ("page_num", .i 1),
        ("definition", .l ["a b", "c"])]] ∧
    ¬(EVal.l ["a b", "c"] = EVal.l ["a", "b", "c"]) := by
  constructor
  · decide
  · decide

end NNN

namespace NNN

/-! ### C6 and C1: membership governs record boundaries -/

theorem seekLoop_not_mem (d : List String) (spans : List SSpan)
    (h : ∀ s ∈ spans, d.contains (headingTextOf s) = false) :
    ∀ (fuel i : Nat) (res : List Entry), seekLoop d spans fuel i res = res := by
  intro fuel
  induction fuel with
  | zero => intro i res; rfl
  | succ n ih =>
    intro i res
    rw [seekLoop]
    cases hsp : spans[i]? with
    | none => rfl
    | some sp =>
      have hm := h sp (List.getElem?_mem hsp)
      simp only [hm]
      simp [ih]

/-- C6 (amended): with an empty Expected-Identity Set the segmenter does
not crash but produces no records at all — the membership test fails at
every span, so no heading-styled span ever opens a record. -/
theorem segmentShortened_empty_set (spans : List SSpan) :
    segmentShortened [] spans = [] := by
  unfold segmentShortened
  exact seekLoop_not_mem [] spans (fun s _ => rfl) _ 0 []

set_option maxRecDepth 20000 in
/-- C6 counterexample: a heading-styled span followed by a label and
content, segmented with the empty identity set, yields no record — the
claimed degradation to "every heading-styled span is a boundary" does not
happen. -/
theorem segmentShortened_empty_set_counterexample :
    isDiagnosisHeadingStyle ⟨"Anxiety", "HelveticaNeueLTStd-Bd", 140, 16777215, 1⟩ = true ∧
    segmentShortened []
      [⟨"Anxiety", "HelveticaNeueLTStd-Bd", 140, 16777215, 1⟩,
       ⟨"Definition", "SomeFont", 100, 4153748, 1⟩,
       ⟨"Body text.", "MinionPro-Regular", 95, 2301728, 1⟩] = [] := by
  exact ⟨by decide, by decide⟩

theorem classifyRawAux_fst (d : List String) :
    ∀ (l : List SSpan) (n : Nat),
      (classifyRawAux d l n).1 =
        ((l.enumFrom n).filter fun p => isRawHeading d p.2).map
          fun p => ⟨p.2.text, p.1, p.2.page⟩ := by
  intro l
  induction l with
  | nil => intro n; rfl
  | cons s rest ih =>
    intro n
    rw [List.enumFrom_cons, List.filter_cons, classifyRawAux]
    by_cases h1 : isRawHeading d s
    · simp [h1, ih]
    · simp only [h1, if_neg, Bool.false_eq_true, not_false_eq_true, if_false]
      split_ifs <;> simp [h1, ih]

/-- C1 (amended): in `extract_raw_NNN_content.py` a span is classified as
a heading exactly when it both carries the heading style and its
normalized text is in the Expected-Identity Set; in
`extract_shortened_new_book_content.py` the set membership alone governs
boundaries (no style test), so a span whose normalized text is in no
identity set never opens a record. -/
theorem heading_requires_membership :
    (∀ (d : List String) (spans : List SSpan),
      (classifyRaw d spans).1 =
        ((spans.enumFrom 0).filter fun p => isRawHeading d p.2).map
          fun p => ⟨p.2.text, p.1, p.2.page⟩) ∧
    (∀ (d : List String) (spans : List SSpan),
      (∀ s ∈ spans, d.contains (headingTextOf s) = false) →
      segmentShortened d spans = []) := by
  constructor
  · intro d spans
    exact classifyRawAux_fst d spans 0
  · intro d spans h
    unfold segmentShortened
    exact seekLoop_not_mem d spans h _ 0 []

/-- C1 witness: the two parts of the amended claim at concrete inputs. -/
theorem heading_requires_membership_witness :
    (classifyRaw ["anxiety"] [⟨"Anxiety", "f0", 2088, 0, 74⟩]).1 =
      ((([⟨"Anxiety", "f0", 2088, 0, 74⟩] : List SSpan).enumFrom 0).filter
        fun p => isRawHeading ["anxiety"] p.2).map
          (fun p => ⟨p.2.text, p.1, p.2.page⟩) ∧
    segmentShortened ["anxiety"]
      [⟨"Fear", "HelveticaNeueLTStd-Bd", 140, 16777215, 1⟩] = [] :=
  ⟨heading_requires_membership.1 ["anxiety"] [⟨"Anxiety", "f0", 2088, 0, 74⟩],
   heading_requires_membership.2 ["anxiety"]
     [⟨"Fear", "HelveticaNeueLTStd-Bd", 140, 16777215, 1⟩] (by decide)⟩

set_option maxRecDepth 20000 in
/-- C1 counterexample: in the shortened-book segmenter, a span whose text
is in the identity set but whose style is body-content style (not the
heading style) does open a record. -/
theorem membership_without_style_opens_record :
    isDiagnosisHeadingStyle ⟨"anxiety", "MinionPro-Regular", 95, 2301728, 1⟩ = false ∧
    segmentShortened ["anxiety"]
      [⟨"anxiety", "MinionPro-Regular", 95, 2301728, 1⟩,
       ⟨"Definition", "SomeFont", 100, 4153748, 1⟩,
       ⟨"Body text.", "MinionPro-Regular", 95, 2301728, 1⟩] =
      [[("diagnosis", .s "anxiety"), ("page_num", .i 1),
        ("definition", .s "Body text.")]] :=
  ⟨by decide, by decide⟩

end NNN

namespace NNN

/-! ### C2: committed records of the shortened-book segmenter have fields -/

theorem upsert_keys (e : Entry) (k : String) (v : EVal) :
    (upsert e k v).map Prod.fst = e.map Prod.fst ∨
    ((upsert e k v).map Prod.fst = e.map Prod.fst ++ [k] ∧
      ¬(k ∈ e.map Prod.fst)) := by
  unfold upsert
  by_cases h : e.any (fun kv => kv.1 == k) = true
  · left
    rw [if_pos h, List.map_map]
    apply List.map_congr_left
    intro kv _
    by_cases hk : kv.1 == k
    · simp only [Function.comp_apply, hk, if_true]
      exact (eq_of_beq hk).symm
    · have hne : ¬(kv.1 = k) := by simpa using hk
      simp [hne]
  · right
    rw [if_neg h]
    refine ⟨by simp, ?_⟩
    intro hmem
    apply h
    rw [List.any_eq_true]
    rcases List.mem_map.mp hmem with ⟨kv, hkv, rfl⟩
    exact ⟨kv, hkv, by simp⟩

theorem upsert_inv (e : Entry) (k : String) (v : EVal)
    (h1 : ∃ rest, e.map Prod.fst = "diagnosis" :: "page_num" :: rest)
    (h2 : (e.map Prod.fst).Nodup) :
    (∃ rest, (upsert e k v).map Prod.fst = "diagnosis" :: "page_num" :: rest) ∧
      ((upsert e k v).map Prod.fst).Nodup := by
  rcases upsert_keys e k v with heq | ⟨heq, hnk⟩
  · rw [heq]
    exact ⟨h1, h2⟩
  · rw [heq]
    rcases h1 with ⟨rest, hr⟩
    refine ⟨⟨rest ++ [k], by rw [hr]; simp⟩, ?_⟩
    simp [List.nodup_append, h2, hnk]

theorem innerLoop_inv (d : List String) (spans : List SSpan) :
    ∀ (fuel i : Nat) (entry : Entry),
      ((∃ rest, entry.map Prod.fst = "diagnosis" :: "page_num" :: rest) ∧
        (entry.map Prod.fst).Nodup) →
      ((∃ rest, (innerLoop d spans fuel i entry).2.map Prod.fst =
          "diagnosis" :: "page_num" :: rest) ∧
        ((innerLoop d spans fuel i entry).2.map Prod.fst).Nodup) := by
  intro fuel
  induction fuel with
  | zero => intro i entry h; exact h
  | succ n ih =>
    intro i entry h
    cases hsp : spans[i]? with
    | none =>
      simp only [innerLoop, hsp]
      exact h
    | some sp =>
      simp only [innerLoop, hsp]
      by_cases h1 : isNextDiagnosis d sp = true
      · rw [if_pos h1]
        exact h
      · rw [if_neg h1]
        by_cases h2 : isSubsectionSpan sp = true
        · rw [if_pos h2]
          split_ifs with hstop hco
          · exact h
          · split
            · split_ifs with hcw
              · exact ih _ _ (upsert_inv _ _ _ h.1 h.2)
              · exact ih _ _ h
            · exact ih _ _ h
          · split
            · exact ih _ _ (upsert_inv _ _ _ h.1 h.2)
            · exact ih _ _ h
        · rw [if_neg h2]
          exact ih _ _ h

theorem seekLoop_mem (d : List String) (spans : List SSpan) :
    ∀ (fuel i : Nat) (res : List Entry) (e : Entry),
      e ∈ seekLoop d spans fuel i res →
      e ∈ res ∨ (2 < e.length ∧
        (∃ rest, e.map Prod.fst = "diagnosis" :: "page_num" :: rest) ∧
        (e.map Prod.fst).Nodup) := by
  intro fuel
  induction fuel with
  | zero => intro i res e h; exact .inl h
  | succ n ih =>
    intro i res e h
    cases hsp : spans[i]? with
    | none =>
      simp only [seekLoop, hsp] at h
      exact .inl h
    | some sp =>
      simp only [seekLoop, hsp] at h
      by_cases hm : d.contains (headingTextOf sp) = true
      · rw [if_pos hm] at h
        rcases ih _ _ e h with hres | hgood
        · by_cases hlen :
            2 < (innerLoop d spans (spans.length + 1) (i + 1)
              [("diagnosis", EVal.s (normalize_val sp.text)),
               ("page_num", EVal.i (sp.page : Int))]).2.length
          · rw [if_pos hlen] at hres
            rcases List.mem_append.mp hres with h1 | h2
            · exact .inl h1
            · right
              have he : e = (innerLoop d spans (spans.length + 1) (i + 1)
                  [("diagnosis", EVal.s (normalize_val sp.text)),
                   ("page_num", EVal.i (sp.page : Int))]).2 := by simpa using h2
              subst he
              refine ⟨hlen, ?_⟩
              refine innerLoop_inv d spans _ _ _ ⟨⟨[], rfl⟩, ?_⟩
              simp
          · rw [if_neg hlen] at hres
            exact .inl hres
        · exact .inr hgood
      · rw [if_neg hm] at h
        exact ih _ _ e h

/-- C2 (amended): in the shortened-book segmenter every committed record
has more than the two identity keys, hence at least one extracted field
beyond `diagnosis` and `page_num`.  (The raw-book extractor, by contrast,
emits heading-only records; see the counterexample.) -/
theorem committed_records_have_fields (d : List String) (spans : List SSpan)
    (e : Entry) (h : e ∈ segmentShortened d spans) :
    2 < e.length ∧ ∃ kv ∈ e, ¬(kv.1 = "diagnosis") ∧ ¬(kv.1 = "page_num") := by
  rcases seekLoop_mem d spans _ 0 [] e h with hres | ⟨hlen, ⟨rest, hkeys⟩, hnd⟩
  · simp at hres
  refine ⟨hlen, ?_⟩
  have hlen2 : 2 < (e.map Prod.fst).length := by simpa using hlen
  rw [hkeys] at hlen2 hnd
  cases rest with
  | nil => simp at hlen2
  | cons r rtail =>
    have hr : r ∈ e.map Prod.fst := by
      rw [hkeys]
      simp
    rcases List.mem_map.mp hr with ⟨kv, hkv, hfst⟩
    have hd : ¬(r = "diagnosis") := by
      intro hc
      subst hc
      simp at hnd
    have hp : ¬(r = "page_num") := by
      intro hc
      subst hc
      simp at hnd
    exact ⟨kv, hkv, by rw [hfst]; exact hd, by rw [hfst]; exact hp⟩

set_option maxRecDepth 20000 in
/-- C2 witness: the amended theorem applied to a concrete committed
record. -/
theorem committed_records_have_fields_witness :
    2 < ([("diagnosis", EVal.s "Anxiety"), ("page_num", EVal.i 3),
      ("definition", EVal.s "A state of apprehension.")] : Entry).length ∧
    ∃ kv ∈ ([("diagnosis", EVal.s "Anxiety"), ("page_num", EVal.i 3),
      ("definition", EVal.s "A state of apprehension.")] : Entry),
      ¬(kv.1 = "diagnosis") ∧ ¬(kv.1 = "page_num") :=
  committed_records_have_fields ["anxiety"]
    [⟨"Anxiety", "HelveticaNeueLTStd-Bd", 140, 16777215, 3⟩,
     ⟨"Definition", "SomeFont", 100, 4153748, 3⟩,
     ⟨"A state of apprehension.", "MinionPro-Regular", 95, 2301728, 3⟩]
    _ (by decide)

/-- C2 counterexample: the raw-book extractor appends a record for a
heading with zero extracted fields — the record has exactly the two
identity keys. -/
theorem raw_heading_only_record_counterexample :
    buildRawSections ["anxiety"] [⟨"Anxiety", "f0", 2088, 0, 74⟩] =
      [[("diagnosis", .s "Anxiety"), ("page_num", .i 74)]] ∧
    ([("diagnosis", EVal.s "Anxiety"), ("page_num", EVal.i 74)] : Entry).length = 2 :=
  ⟨by decide, rfl⟩

end NNN

namespace NNN

/-! ### C8: record-granularity error handling of `normalize_data` -/

theorem ndw_acc (body : JEntry → Except String JEntry) :
    ∀ (data : List JEntry) (a : List JEntry × List String),
      data.foldl (ndwStep body) a =
        (a.1 ++ (normalizeDataWith body data).1,
         a.2 ++ (normalizeDataWith body data).2) := by
  intro data
  induction data with
  | nil => intro a; simp [normalizeDataWith]
  | cons e rest ih =>
    intro a
    rw [List.foldl_cons, ih (ndwStep body a e)]
    have h2 : normalizeDataWith body (e :: rest) =
        ((ndwStep body ([], []) e).1 ++ (normalizeDataWith body rest).1,
         (ndwStep body ([], []) e).2 ++ (normalizeDataWith body rest).2) := by
      unfold normalizeDataWith
      rw [List.foldl_cons, ih (ndwStep body ([], []) e)]
      rfl
    rw [h2]
    cases hbe : body e <;> simp [ndwStep, hbe]

theorem ndw_cons (body : JEntry → Except String JEntry) (e : JEntry)
    (rest : List JEntry) :
    normalizeDataWith body (e :: rest) =
      ((ndwStep body ([], []) e).1 ++ (normalizeDataWith body rest).1,
       (ndwStep body ([], []) e).2 ++ (normalizeDataWith body rest).2) := by
  simp only [normalizeDataWith, List.foldl_cons]
  rw [ndw_acc body rest (ndwStep body ([], []) e)]
  simp [normalizeDataWith]

/-- C8: for every input list of raw records, the normalizer emits exactly
one output record per input record in order; when the per-record body
fails, the original record is passed through unchanged and the error
message is recorded in the run-level error log, and processing continues
with the remaining records. -/
theorem normalizeData_record_granularity (body : JEntry → Except String JEntry)
    (data : List JEntry) :
    (normalizeDataWith body data).1.length = data.length ∧
    ∀ (i : Nat) (h : i < data.length),
      (∀ v, body data[i] = .ok v → (normalizeDataWith body data).1[i]? = some v) ∧
      (∀ m, body data[i] = .error m →
        (normalizeDataWith body data).1[i]? = some data[i] ∧
          errMsg data[i] m ∈ (normalizeDataWith body data).2) := by
  induction data with
  | nil => exact ⟨rfl, fun i h => absurd h (by simp)⟩
  | cons e rest ih =>
    have hstep1 : (ndwStep body ([], []) e).1.length = 1 := by
      cases hbe : body e <;> simp [ndwStep, hbe]
    constructor
    · rw [ndw_cons]
      simp only [List.length_append, ih.1, hstep1, List.length_cons]
      omega
    · intro i hi
      cases i with
      | zero =>
        constructor
        · intro v hv
          rw [ndw_cons]
          rw [show (e :: rest)[0] = e from rfl] at hv
          rw [List.getElem?_append_left (by omega)]
          cases hbe : body e with
          | ok w =>
            rw [hbe] at hv
            simp only [Except.ok.injEq] at hv
            subst hv
            simp [ndwStep, hbe]
          | error m =>
            rw [hbe] at hv
            simp at hv
        · intro m hm
          rw [ndw_cons]
          rw [show (e :: rest)[0] = e from rfl] at hm
          cases hbe : body e with
          | ok w =>
            rw [hbe] at hm
            simp at hm
          | error m2 =>
            rw [hbe] at hm
            simp only [Except.error.injEq] at hm
            subst hm
            constructor
            · rw [List.getElem?_append_left (by rw [hstep1]; omega)]
              simp [ndwStep, hbe]
            · apply List.mem_append_left
              simp [ndwStep, hbe]
      | succ j =>
        have hj : j < rest.length := by simpa using hi
        have hidx : (e :: rest)[j + 1] = rest[j] := by simp
        constructor
        · intro v hv
          rw [hidx] at hv
          rw [ndw_cons]
          rw [List.getElem?_append_right (by rw [hstep1]; omega)]
          rw [hstep1]
          simpa using ((ih.2 j hj).1 v hv)
        · intro m hm
          rw [hidx] at hm
          rw [ndw_cons]
          rcases (ih.2 j hj).2 m hm with ⟨hget, hmem⟩
          constructor
          · rw [List.getElem?_append_right (by rw [hstep1]; omega)]
            rw [hstep1]
            rw [hidx]
            simpa using hget
          · exact List.mem_append_right _ hmem

/-- C8 witness: a concrete run in which the second record's body raises;
the record is passed through and the failure is logged. -/
theorem normalizeData_record_granularity_witness :
    (normalizeDataWith
        (fun e => if e.isEmpty then Except.error "boom" else Except.ok e)
        [[("diagnosis", Val.str "X")], []]).1.length = 2 ∧
    (normalizeDataWith
        (fun e => if e.isEmpty then Except.error "boom" else Except.ok e)
        [[("diagnosis", Val.str "X")], []]).1[1]? = some [] ∧
    errMsg [] "boom" ∈ (normalizeDataWith
        (fun e => if e.isEmpty then Except.error "boom" else Except.ok e)
        [[("diagnosis", Val.str "X")], []]).2 := by
  have h := normalizeData_record_granularity
    (fun e => if e.isEmpty then Except.error "boom" else Except.ok e)
    [[("diagnosis", Val.str "X")], []]
  have h2 := (h.2 1 (by simp)).2 "boom" (by rfl)
  exact ⟨h.1, h2.1, h2.2⟩

end NNN

namespace NNN

/-! ### C4: consolidation unions, deduplicates and keeps first-seen order -/

theorem dedupFS_sublist : ∀ (xs seen : List String),
    List.Sublist (dedupFirstSeen xs seen) xs := by
  intro xs
  induction xs with
  | nil => intro seen; simp [dedupFirstSeen]
  | cons x rest ih =>
    intro seen
    rw [dedupFirstSeen]
    by_cases h : seen.contains x = true
    · rw [if_pos h]
      exact (ih seen).trans (List.sublist_cons_self x rest)
    · rw [if_neg h]
      exact (ih (x :: seen)).cons₂ x

theorem mem_dedupFS : ∀ (xs seen : List String) (y : String),
    y ∈ dedupFirstSeen xs seen ↔ (y ∈ xs ∧ ¬(y ∈ seen)) := by
  intro xs
  induction xs with
  | nil => intro seen y; simp [dedupFirstSeen]
  | cons x rest ih =>
    intro seen y
    rw [dedupFirstSeen]
    by_cases h : seen.contains x = true
    · rw [if_pos h]
      have hx : x ∈ seen := by simpa using h
      rw [ih]
      constructor
      · rintro ⟨h1, h2⟩
        exact ⟨List.mem_cons_of_mem x h1, h2⟩
      · rintro ⟨h1, h2⟩
        rcases List.mem_cons.mp h1 with rfl | h3
        · exact absurd hx h2
        · exact ⟨h3, h2⟩
    · rw [if_neg h]
      have hx : ¬(x ∈ seen) := by simpa using h
      rw [List.mem_cons, ih]
      constructor
      · rintro (rfl | ⟨h1, h2⟩)
        · exact ⟨List.mem_cons_self _ _, hx⟩
        · refine ⟨List.mem_cons_of_mem x h1, fun hc => h2 (List.mem_cons_of_mem x hc)⟩
      · rintro ⟨h1, h2⟩
        rcases List.mem_cons.mp h1 with rfl | h3
        · exact .inl rfl
        · by_cases hyx : y = x
          · exact .inl hyx
          · exact .inr ⟨h3, fun hc => by
              rcases List.mem_cons.mp hc with h4 | h5
              · exact hyx h4
              · exact h2 h5⟩

theorem nodup_dedupFS : ∀ (xs seen : List String),
    (dedupFirstSeen xs seen).Nodup := by
  intro xs
  induction xs with
  | nil => intro seen; simp [dedupFirstSeen]
  | cons x rest ih =>
    intro seen
    rw [dedupFirstSeen]
    by_cases h : seen.contains x = true
    · rw [if_pos h]
      exact ih seen
    · rw [if_neg h]
      refine List.Nodup.cons ?_ (ih (x :: seen))
      intro hc
      exact ((mem_dedupFS rest (x :: seen) x).mp hc).2 (List.mem_cons_self x seen)

/-- C4 (amended): `consolidate_fields` returns the concatenation of the
present synonyms' coerced-to-list values deduplicated by exact string
equality with first-seen order preserved (an order-preserving,
duplicate-free sublist with the same members) — but this applies only to
the canonical fields configured in `field_mappings`; `related_factor` /
`related_factors` are not among them, and the singular/plural JSON
normalizer instead gives the plural key priority and ignores the singular,
so the claim's example yields `["stress"]`, not `["pain", "stress"]`. -/
theorem consolidateFields_dedup_union :
    (∀ (entry : JEntry) (srcs : List String),
      (consolidateFields entry srcs).Nodup ∧
      List.Sublist (consolidateFields entry srcs) (consolidatedValues entry srcs) ∧
      ∀ y, y ∈ consolidateFields entry srcs ↔ y ∈ consolidatedValues entry srcs) ∧
    consolidateFields
      [("suggested_nic_intervention", .str "pain"),
       ("suggested_nic_interventions", .list [.str "stress", .str "pain"])]
      ["suggested_nic_intervention", "suggested_nic_interventions"] =
      ["pain", "stress"] ∧
    List.lookup "related_factors"
      (normalizeEntryJson
        [("related_factor", .str "pain"),
         ("related_factors", .list [.str "stress"])]) =
      some (.list [.str "stress"]) := by
  refine ⟨?_, by decide, rfl⟩
  intro entry srcs
  refine ⟨nodup_dedupFS _ [], dedupFS_sublist _ [], ?_⟩
  intro y
  rw [consolidateFields, mem_dedupFS]
  simp

/-- C4 counterexample: at the claim's own example the singular/plural
normalizer returns only the plural value `["stress"]`, not the union
`["pain", "stress"]`. -/
theorem related_factors_not_unioned_counterexample :
    List.lookup "related_factors"
      (normalizeEntryJson
        [("related_factor", .str "pain"),
         ("related_factors", .list [.str "stress"])]) =
      some (.list [.str "stress"]) ∧
    ¬(List.lookup "related_factors"
      (normalizeEntryJson
        [("related_factor", .str "pain"),
         ("related_factors", .list [.str "stress"])]) =
      some (.list [.str "pain", .str "stress"])) := by
  constructor
  · rfl
  · intro h
    rw [show List.lookup "related_factors"
      (normalizeEntryJson
        [("related_factor", .str "pain"),
         ("related_factors", .list [.str "stress"])]) =
      some (Val.list [.str "stress"]) from rfl] at h
    simp at h

/-! ### C10: the singular/plural JSON normalizer's fixed schema -/

/-- C10: for every input entry, `normalize_entry` returns a record with
exactly the seven keys in fixed order; missing source fields are filled by
the empty string or the empty list, and every other input key (including
`page_num`) is dropped. -/
theorem normalizeEntryJson_fixed_schema (e : JEntry) :
    (normalizeEntryJson e).map Prod.fst =
      ["diagnosis", "definition", "defining_characteristics",
       "related_factors", "risk_factors", "suggested_outcomes",
       "suggested_interventions"] ∧
    ¬("page_num" ∈ (normalizeEntryJson e).map Prod.fst) ∧
    (List.lookup "diagnosis" e = none →
      List.lookup "diagnosis" (normalizeEntryJson e) = some (.str "")) ∧
    (List.lookup "definition" e = none →
      List.lookup "definition" (normalizeEntryJson e) = some (.str "")) ∧
    (List.lookup "defining_characteristics" e = none →
      List.lookup "defining_characteristic" e = none →
      List.lookup "defining_characteristics" (normalizeEntryJson e) =
        some (.list [])) ∧
    (List.lookup "related_factors" e = none →
      List.lookup "related_factor" e = none →
      List.lookup "related_factors" (normalizeEntryJson e) = some (.list [])) ∧
    (List.lookup "risk_factors" e = none →
      List.lookup "risk_factor" e = none →
      List.lookup "risk_factors" (normalizeEntryJson e) = some (.list [])) ∧
    (List.lookup "suggested_noc_outcomes" e = none →
      List.lookup "suggested_noc_outcome" e = none →
      List.lookup "suggested_outcomes" (normalizeEntryJson e) =
        some (.list [])) ∧
    (List.lookup "suggested_nic_interventions" e = none →
      List.lookup "suggested_nic_intervention" e = none →
      List.lookup "suggested_interventions" (normalizeEntryJson e) =
        some (.list [])) := by
  refine ⟨rfl, ?_, ?_, ?_, ?_, ?_, ?_, ?_, ?_⟩
  · rw [show (normalizeEntryJson e).map Prod.fst =
      ["diagnosis", "definition", "defining_characteristics",
       "related_factors", "risk_factors", "suggested_outcomes",
       "suggested_interventions"] from rfl]
    decide
  · intro h
    simp [normalizeEntryJson, List.lookup, h, toStrJ, pyLower]
  · intro h
    simp [normalizeEntryJson, List.lookup, h, toStrJ, pyLower]
  · intro h1 h2
    simp [normalizeEntryJson, List.lookup, getFieldValue, h1, h2, toListJ]
  · intro h1 h2
    simp [normalizeEntryJson, List.lookup, getFieldValue, h1, h2, toListJ]
  · intro h1 h2
    simp [normalizeEntryJson, List.lookup, getFieldValue, h1, h2, toListJ]
  · intro h1 h2
    simp [normalizeEntryJson, List.lookup, getFieldValue, h1, h2, toListJ]
  · intro h1 h2
    simp [normalizeEntryJson, List.lookup, getFieldValue, h1, h2, toListJ]

/-- C10 witness: the fixed schema at a concrete entry whose only key is
`page_num`. -/
theorem normalizeEntryJson_fixed_schema_witness :
    (normalizeEntryJson [("page_num", Val.int 3)]).map Prod.fst =
      ["diagnosis", "definition", "defining_characteristics",
       "related_factors", "risk_factors", "suggested_outcomes",
       "suggested_interventions"] ∧
    List.lookup "diagnosis" (normalizeEntryJson [("page_num", Val.int 3)]) =
      some (.str "") ∧
    List.lookup "related_factors" (normalizeEntryJson [("page_num", Val.int 3)]) =
      some (.list []) := by
  have h := normalizeEntryJson_fixed_schema [("page_num", Val.int 3)]
  exact ⟨h.1, h.2.2.1 rfl, h.2.2.2.2.1 rfl rfl⟩

end NNN

namespace NNN

/-! ### C3: character-class facts and scan invariants -/

theorem wsChar_dash_false : wsChar '-' = false := by decide

theorem ws_ne_dash {c : Char} (h : wsChar c = true) : ¬(c = '-') := by
  intro hc
  rw [hc] at h
  exact absurd h (by decide)

theorem whRel_symm {a b : Char} (h : whRel a b) : whRel b a :=
  ⟨fun ⟨hb, hwa⟩ => h.2 ⟨hwa, hb⟩, fun ⟨hwb, ha⟩ => h.1 ⟨ha, hwb⟩⟩

theorem ddRel_symm {a b : Char} (h : ddRel a b) : ddRel b a :=
  fun ⟨hb, ha⟩ => h ⟨ha, hb⟩

theorem quoteMap_cases (c : Char) :
    (quoteMap c = Char.ofNat 39 ∨ quoteMap c = '"') ∨
      (quoteMap c = c ∧ quoteSrcChar c = false) := by
  unfold quoteMap
  by_cases h1 : (c == '\u2019' || c == '\u2018' || c == '\u00b4' || c == '\u0060') = true
  · rw [if_pos h1]
    exact .inl (.inl rfl)
  · rw [if_neg h1]
    by_cases h2 : (c == '\u201c' || c == '\u201d') = true
    · rw [if_pos h2]
      exact .inl (.inr rfl)
    · rw [if_neg h2]
      refine .inr ⟨rfl, ?_⟩
      simp only [Bool.or_eq_true, beq_iff_eq, not_or] at h1 h2
      unfold quoteSrcChar
      simp [h1.1.1.1, h1.1.1.2, h1.1.2, h1.2, h2.1, h2.2]

theorem quoteMap_ws (c : Char) : wsChar (quoteMap c) = wsChar c := by
  unfold quoteMap
  by_cases h1 : (c == '\u2019' || c == '\u2018' || c == '\u00b4' || c == '\u0060') = true
  · rw [if_pos h1]
    simp only [Bool.or_eq_true, beq_iff_eq] at h1
    rcases h1 with ((rfl | rfl) | rfl) | rfl <;> decide
  · rw [if_neg h1]
    by_cases h2 : (c == '\u201c' || c == '\u201d') = true
    · rw [if_pos h2]
      simp only [Bool.or_eq_true, beq_iff_eq] at h2
      rcases h2 with rfl | rfl <;> decide
    · rw [if_neg h2]

theorem quoteMap_dash (c : Char) : (quoteMap c = '-') ↔ (c = '-') := by
  unfold quoteMap
  by_cases h1 : (c == '\u2019' || c == '\u2018' || c == '\u00b4' || c == '\u0060') = true
  · rw [if_pos h1]
    simp only [Bool.or_eq_true, beq_iff_eq] at h1
    rcases h1 with ((rfl | rfl) | rfl) | rfl <;> decide
  · rw [if_neg h1]
    by_cases h2 : (c == '\u201c' || c == '\u201d') = true
    · rw [if_pos h2]
      simp only [Bool.or_eq_true, beq_iff_eq] at h2
      rcases h2 with rfl | rfl <;> decide
    · rw [if_neg h2]

theorem quoteMap_id_of_not_src {c : Char} (h : quoteSrcChar c = false) :
    quoteMap c = c := by
  have h1 : ¬((c == '\u2019' || c == '\u2018' || c == '\u00b4' || c == '\u0060') = true) := by
    intro hcon
    simp only [Bool.or_eq_true, beq_iff_eq] at hcon
    rcases hcon with ((rfl | rfl) | rfl) | rfl <;> exact absurd h (by decide)
  have h2 : ¬((c == '\u201c' || c == '\u201d') = true) := by
    intro hcon
    simp only [Bool.or_eq_true, beq_iff_eq] at hcon
    rcases hcon with rfl | rfl <;> exact absurd h (by decide)
  unfold quoteMap
  rw [if_neg h1, if_neg h2]

theorem whRel_quoteMap {a b : Char} (h : whRel a b) :
    whRel (quoteMap a) (quoteMap b) := by
  constructor
  · rintro ⟨hd, hw⟩
    exact h.1 ⟨(quoteMap_dash a).mp hd, by rwa [quoteMap_ws b] at hw⟩
  · rintro ⟨hw, hd⟩
    exact h.2 ⟨by rwa [quoteMap_ws a] at hw, (quoteMap_dash b).mp hd⟩

theorem mem_squashRun : ∀ (l : List Char) (b : Bool) (x : Char),
    x ∈ squashRun b l → x ∈ l := by
  intro l
  induction l with
  | nil => intro b x h; simp [squashRun] at h
  | cons c cs ih =>
    intro b x h
    rw [squashRun] at h
    by_cases hc : c = '-'
    · rw [if_pos hc] at h
      cases b with
      | true => exact List.mem_cons_of_mem c (ih true x h)
      | false =>
        rcases List.mem_cons.mp h with rfl | h2
        · rw [hc]; exact List.mem_cons_self _ _
        · exact List.mem_cons_of_mem c (ih true x h2)
    · rw [if_neg hc] at h
      rcases List.mem_cons.mp h with rfl | h2
      · exact List.mem_cons_self _ _
      · exact List.mem_cons_of_mem c (ih false x h2)

theorem head_squashRun_false (l : List Char) :
    (squashRun false l).head? = l.head? := by
  cases l with
  | nil => rfl
  | cons c cs =>
    rw [squashRun]
    by_cases hc : c = '-'
    · rw [if_pos hc, hc]
      rfl
    · rw [if_neg hc]
      rfl

theorem head_squashRun_true_ne_dash : ∀ (l : List Char) (c : Char),
    (squashRun true l).head? = some c → ¬(c = '-') := by
  intro l
  induction l with
  | nil => intro c h; simp [squashRun] at h
  | cons a cs ih =>
    intro c h
    rw [squashRun] at h
    by_cases ha : a = '-'
    · rw [if_pos ha] at h
      exact ih c h
    · rw [if_neg ha] at h
      simp at h
      rw [← h]
      exact ha

theorem noDD_squashRun : ∀ (l : List Char) (b : Bool),
    List.Chain' ddRel (squashRun b l) := by
  intro l
  induction l with
  | nil => intro b; simp [squashRun]
  | cons c cs ih =>
    intro b
    rw [squashRun]
    by_cases hc : c = '-'
    · rw [if_pos hc]
      cases b with
      | true =>
        rw [if_pos rfl]
        exact ih true
      | false =>
        rw [if_neg (by decide)]
        rw [List.chain'_cons']
        refine ⟨?_, ih true⟩
        intro y hy
        rintro ⟨_, hy2⟩
        exact head_squashRun_true_ne_dash cs y hy hy2
    · rw [if_neg hc]
      rw [List.chain'_cons']
      refine ⟨?_, ih false⟩
      intro y hy
      rintro ⟨hc2, _⟩
      exact hc hc2

theorem squashRun_true_eq_false_of_head (l : List Char)
    (h : ∀ y, l.head? = some y → ¬(y = '-')) :
    squashRun true l = squashRun false l := by
  cases l with
  | nil => rfl
  | cons a cs =>
    have ha := h a rfl
    rw [squashRun, squashRun, if_neg ha, if_neg ha]

theorem squashRun_id : ∀ (l : List Char), List.Chain' ddRel l →
    squashRun false l = l := by
  intro l
  induction l with
  | nil => intro h; rfl
  | cons c cs ih =>
    intro h
    rw [List.chain'_cons'] at h
    rw [squashRun]
    by_cases hc : c = '-'
    · rw [if_pos hc, if_neg (by decide)]
      rw [squashRun_true_eq_false_of_head cs (fun y hy => fun hy2 => h.1 y hy ⟨hc, hy2⟩)]
      rw [ih h.2, hc]
    · rw [if_neg hc]
      rw [ih h.2]

theorem head_squashRun_true_not_ws : ∀ (cs : List Char),
    List.Chain' whRel ('-' :: cs) →
    ∀ y, (squashRun true cs).head? = some y → wsChar y = false := by
  intro cs
  induction cs with
  | nil => intro _ y h; simp [squashRun] at h
  | cons a t ih =>
    intro hch y h
    rw [squashRun] at h
    by_cases ha : a = '-'
    · rw [if_pos ha, if_pos rfl] at h
      have htail := (List.chain'_cons'.mp hch).2
      rw [ha] at htail
      exact ih htail y h
    · rw [if_neg ha] at h
      simp at h
      subst h
      have hpair := (List.chain'_cons'.mp hch).1 a rfl
      by_cases hw : wsChar a = true
      · exact (hpair.1 ⟨rfl, hw⟩).elim
      · simpa using hw

theorem noWH_squashRun : ∀ (l : List Char) (b : Bool),
    List.Chain' whRel l → List.Chain' whRel (squashRun b l) := by
  intro l
  induction l with
  | nil => intro b _; simp [squashRun]
  | cons c cs ih =>
    intro b hch
    have htail : List.Chain' whRel cs := (List.chain'_cons'.mp hch).2
    rw [squashRun]
    by_cases hc : c = '-'
    · rw [if_pos hc]
      cases b with
      | true =>
        rw [if_pos rfl]
        exact ih true htail
      | false =>
        rw [if_neg (by decide)]
        rw [List.chain'_cons']
        refine ⟨?_, ih true htail⟩
        intro y hy
        have hws : wsChar y = false := by
          refine head_squashRun_true_not_ws cs ?_ y hy
          rw [← hc]
          exact hch
        constructor
        · rintro ⟨_, hw⟩
          rw [hws] at hw
          exact absurd hw (by decide)
        · rintro ⟨hw, _⟩
          rw [wsChar_dash_false] at hw
          exact absurd hw (by decide)
    · rw [if_neg hc]
      rw [List.chain'_cons']
      refine ⟨?_, ih false htail⟩
      intro y hy
      rw [head_squashRun_false cs] at hy
      exact (List.chain'_cons'.mp hch).1 y hy

end NNN

namespace NNN

theorem mem_sub4s : ∀ (l : List Char) (b : Bool) (pend : List Char) (x : Char),
    x ∈ sub4s b pend l → x ∈ pend ∨ x ∈ l := by
  intro l
  induction l with
  | nil =>
    intro b pend x h
    rw [sub4s] at h
    cases b with
    | true =>
      rw [if_pos rfl] at h
      simp at h
    | false =>
      rw [if_neg (by decide)] at h
      exact .inl h
  | cons c cs ih =>
    intro b pend x h
    rw [sub4s] at h
    by_cases hws : wsChar c = true
    · rw [if_pos hws] at h
      rcases ih b (pend ++ [c]) x h with h1 | h2
      · rcases List.mem_append.mp h1 with h3 | h4
        · exact .inl h3
        · simp at h4
          subst h4
          exact .inr (List.mem_cons_self _ _)
      · exact .inr (List.mem_cons_of_mem c h2)
    · rw [if_neg hws] at h
      by_cases hc : c = '-'
      · rw [if_pos hc] at h
        rcases List.mem_cons.mp h with rfl | h2
        · rw [hc]
          exact .inr (List.mem_cons_self _ _)
        · rcases ih true [] x h2 with h3 | h4
          · simp at h3
          · exact .inr (List.mem_cons_of_mem c h4)
      · rw [if_neg hc] at h
        rcases List.mem_append.mp h with h1 | h2
        · cases b with
          | true =>
            rw [if_pos rfl] at h1
            simp at h1
          | false =>
            rw [if_neg (by decide)] at h1
            exact .inl h1
        · rcases List.mem_cons.mp h2 with rfl | h3
          · exact .inr (List.mem_cons_self _ _)
          · rcases ih false [] x h3 with h4 | h5
            · simp at h4
            · exact .inr (List.mem_cons_of_mem c h5)

theorem head_sub4s_true_not_ws : ∀ (l pend : List Char) (y : Char),
    (sub4s true pend l).head? = some y → wsChar y = false := by
  intro l
  induction l with
  | nil =>
    intro pend y h
    rw [sub4s, if_pos rfl] at h
    simp at h
  | cons c cs ih =>
    intro pend y h
    rw [sub4s] at h
    by_cases hws : wsChar c = true
    · rw [if_pos hws] at h
      exact ih (pend ++ [c]) y h
    · rw [if_neg hws] at h
      by_cases hc : c = '-'
      · rw [if_pos hc] at h
        simp at h
        subst h
        exact wsChar_dash_false
      · rw [if_neg hc, if_pos rfl] at h
        simp at h
        subst h
        simpa using hws

theorem chain'_all_ws (m : List Char) (h : ∀ x ∈ m, wsChar x = true) :
    List.Chain' whRel m := by
  induction m with
  | nil => simp
  | cons a t ih =>
    rw [List.chain'_cons']
    refine ⟨?_, ih fun x hx => h x (List.mem_cons_of_mem a hx)⟩
    intro y hy
    have ha := h a (List.mem_cons_self _ _)
    have hyw := h y (List.mem_cons_of_mem a (List.mem_of_mem_head? hy))
    exact ⟨fun ⟨had, _⟩ => ws_ne_dash ha had, fun ⟨_, hyd⟩ => ws_ne_dash hyw hyd⟩

theorem mem_of_getLast? {l : List Char} {x : Char} (h : l.getLast? = some x) :
    x ∈ l := by
  rw [← List.head?_reverse] at h
  exact List.mem_reverse.mp (List.mem_of_mem_head? h)

theorem noWH_sub4s : ∀ (l : List Char) (b : Bool) (pend : List Char),
    (∀ x ∈ pend, wsChar x = true) → List.Chain' whRel (sub4s b pend l) := by
  intro l
  induction l with
  | nil =>
    intro b pend hp
    rw [sub4s]
    cases b with
    | true =>
      rw [if_pos rfl]
      simp
    | false =>
      rw [if_neg (by decide)]
      exact chain'_all_ws pend hp
  | cons c cs ih =>
    intro b pend hp
    rw [sub4s]
    by_cases hws : wsChar c = true
    · rw [if_pos hws]
      refine ih b (pend ++ [c]) ?_
      intro x hx
      rcases List.mem_append.mp hx with h1 | h2
      · exact hp x h1
      · simp at h2
        subst h2
        exact hws
    · rw [if_neg hws]
      by_cases hc : c = '-'
      · rw [if_pos hc]
        rw [List.chain'_cons']
        refine ⟨?_, ih true [] (by simp)⟩
        intro y hy
        have hyw := head_sub4s_true_not_ws cs [] y hy
        constructor
        · rintro ⟨_, hw⟩
          rw [hyw] at hw
          exact absurd hw (by decide)
        · rintro ⟨hw, _⟩
          rw [wsChar_dash_false] at hw
          exact absurd hw (by decide)
      · rw [if_neg hc]
        have htail : List.Chain' whRel (c :: sub4s false [] cs) := by
          rw [List.chain'_cons']
          refine ⟨?_, ih false [] (by simp)⟩
          intro y _
          exact ⟨fun ⟨hcd, _⟩ => hc hcd, fun ⟨hcw, _⟩ => hws hcw⟩
        cases b with
        | true =>
          rw [if_pos rfl]
          simpa using htail
        | false =>
          rw [if_neg (by decide)]
          rw [List.chain'_append]
          refine ⟨chain'_all_ws pend hp, htail, ?_⟩
          intro x hx y hy
          have hxw := hp x (mem_of_getLast? hx)
          have hyc : c = y := by simpa using hy
          subst hyc
          exact ⟨fun ⟨hxd, _⟩ => ws_ne_dash hxw hxd, fun ⟨_, hyd⟩ => hc hyd⟩

theorem sub4s_true_eq_false_of_head (l : List Char)
    (h : ∀ y, l.head? = some y → wsChar y = false) :
    sub4s true [] l = sub4s false [] l := by
  cases l with
  | nil => simp [sub4s]
  | cons c cs =>
    have hc := h c rfl
    simp [sub4s, hc]

theorem sub4s_id : ∀ (l pend : List Char),
    (∀ x ∈ pend, wsChar x = true) → List.Chain' whRel l →
    (¬(pend = []) → ∀ y, l.head? = some y → ¬(y = '-')) →
    sub4s false pend l = pend ++ l := by
  intro l
  induction l with
  | nil =>
    intro pend _ _ _
    rw [sub4s, if_neg (by decide)]
    simp
  | cons c cs ih =>
    intro pend hp hch hcond
    have hpair := (List.chain'_cons'.mp hch).1
    have htail := (List.chain'_cons'.mp hch).2
    rw [sub4s]
    by_cases hws : wsChar c = true
    · rw [if_pos hws]
      rw [ih (pend ++ [c]) ?_ htail ?_]
      · simp
      · intro x hx
        rcases List.mem_append.mp hx with h1 | h2
        · exact hp x h1
        · simp at h2
          subst h2
          exact hws
      · intro _ y hy hyd
        exact (hpair y hy).2 ⟨hws, hyd⟩
    · rw [if_neg hws]
      by_cases hc : c = '-'
      · have hpend : pend = [] := by
          by_contra hpne
          exact hcond hpne c rfl hc
        subst hpend
        rw [if_pos hc]
        rw [sub4s_true_eq_false_of_head cs ?_]
        · rw [ih [] (by simp) htail (fun hpne => absurd rfl hpne)]
          simp [hc]
        · intro y hy
          by_cases hw : wsChar y = true
          · exact ((hpair y hy).1 ⟨hc, hw⟩).elim
          · simpa using hw
      · rw [if_neg hc, if_neg (by decide)]
        rw [ih [] (by simp) htail (fun hpne => absurd rfl hpne)]
        simp

end NNN

namespace NNN

theorem chain'_dropWhile {R : Char → Char → Prop} (p : Char → Bool) :
    ∀ (l : List Char), List.Chain' R l → List.Chain' R (l.dropWhile p) := by
  intro l
  induction l with
  | nil => intro h; simp
  | cons a t ih =>
    intro h
    rw [List.dropWhile_cons]
    by_cases hp : p a = true
    · rw [if_pos hp]
      exact ih (List.chain'_cons'.mp h).2
    · rw [if_neg hp]
      exact h

theorem chain'_rev_of_symm {R : Char → Char → Prop}
    (hsymm : ∀ a b, R a b → R b a) (l : List Char) (h : List.Chain' R l) :
    List.Chain' R l.reverse :=
  List.chain'_reverse.mpr (h.imp fun a b hab => hsymm a b hab)

theorem chain'_stripChars {R : Char → Char → Prop}
    (hsymm : ∀ a b, R a b → R b a) (l : List Char) (h : List.Chain' R l) :
    List.Chain' R (stripChars l) := by
  unfold stripChars
  exact chain'_rev_of_symm hsymm _
    (chain'_dropWhile _ _ (chain'_rev_of_symm hsymm _ (chain'_dropWhile _ _ h)))

theorem mem_stripChars {l : List Char} {x : Char} (h : x ∈ stripChars l) :
    x ∈ l := by
  unfold stripChars at h
  rw [List.mem_reverse] at h
  have h2 := (List.dropWhile_sublist _).subset h
  rw [List.mem_reverse] at h2
  exact (List.dropWhile_sublist _).subset h2

theorem mem_normalizeChars_classes (x : List Char) (c : Char)
    (h : c ∈ normalizeChars x) :
    invisChar c = false ∧ dashChar c = false ∧ quoteSrcChar c = false := by
  unfold normalizeChars at h
  have h2 := mem_stripChars h
  rcases List.mem_map.mp h2 with ⟨c2, hc2, hqm⟩
  have h3 := mem_sub4s _ false [] c2 hc2
  simp only [List.not_mem_nil, false_or] at h3
  have h4 := mem_squashRun _ false c2 h3
  rcases List.mem_map.mp h4 with ⟨c3, hc3, hdm⟩
  have h5 : invisChar c3 = false := by
    have := List.mem_filter.mp hc3
    simpa using this.2
  have hc2cls : invisChar c2 = false ∧ dashChar c2 = false := by
    by_cases hd : dashChar c3 = true
    · rw [if_pos hd] at hdm
      rw [← hdm]
      exact ⟨by decide, by decide⟩
    · rw [if_neg hd] at hdm
      rw [← hdm]
      exact ⟨h5, by simpa using hd⟩
  rcases quoteMap_cases c2 with (hq | hq) | ⟨hq, hqs⟩
  · rw [hq] at hqm
    rw [← hqm]
    exact ⟨by decide, by decide, by decide⟩
  · rw [hq] at hqm
    rw [← hqm]
    exact ⟨by decide, by decide, by decide⟩
  · rw [hq] at hqm
    rw [← hqm]
    exact ⟨hc2cls.1, hc2cls.2, hqs⟩

theorem noWH_normalizeChars (x : List Char) :
    List.Chain' whRel (normalizeChars x) := by
  unfold normalizeChars
  apply chain'_stripChars (fun a b h => whRel_symm h)
  rw [List.chain'_map]
  exact (noWH_sub4s _ false [] (by simp)).imp fun a b h => whRel_quoteMap h

theorem normalizeChars_of_invariants (y : List Char)
    (hcls : ∀ c ∈ y, invisChar c = false ∧ dashChar c = false ∧ quoteSrcChar c = false)
    (hwh : List.Chain' whRel y) :
    normalizeChars y = stripChars (squashRun false y) := by
  unfold normalizeChars
  have hfilter : (y.filter fun c => !invisChar c) = y :=
    List.filter_eq_self.mpr (fun c hc => by simp [(hcls c hc).1])
  rw [hfilter]
  have hmap : (y.map fun c => if dashChar c then '-' else c) = y := by
    have h1 : (y.map fun c => if dashChar c then '-' else c) = y.map id :=
      List.map_congr_left (fun c hc => by simp [(hcls c hc).2.1])
    rw [h1, List.map_id]
  rw [hmap]
  have hsub : sub4s false [] (squashRun false y) = squashRun false y := by
    have := sub4s_id (squashRun false y) [] (by simp)
      (noWH_squashRun y false hwh) (fun hpne => absurd rfl hpne)
    simpa using this
  rw [hsub]
  have hqm : (squashRun false y).map quoteMap = squashRun false y := by
    have h1 : (squashRun false y).map quoteMap = (squashRun false y).map id :=
      List.map_congr_left (fun c hc =>
        quoteMap_id_of_not_src (hcls c (mem_squashRun y false c hc)).2.2)
    rw [h1, List.map_id]
  rw [hqm]

theorem normalizeChars_id (z : List Char)
    (hcls : ∀ c ∈ z, invisChar c = false ∧ dashChar c = false ∧ quoteSrcChar c = false)
    (hdd : List.Chain' ddRel z) (hwh : List.Chain' whRel z)
    (hh : ∀ c, z.head? = some c → wsChar c = false)
    (hl : ∀ c, z.getLast? = some c → wsChar c = false) :
    normalizeChars z = z := by
  rw [normalizeChars_of_invariants z hcls hwh]
  rw [squashRun_id z hdd]
  exact stripChars_id z hh hl

theorem normalizeChars_double_fixed (x : List Char) :
    normalizeChars (normalizeChars (normalizeChars x)) =
      normalizeChars (normalizeChars x) := by
  have hy_cls := mem_normalizeChars_classes x
  have hy_wh := noWH_normalizeChars x
  have hz_eq : normalizeChars (normalizeChars x) =
      stripChars (squashRun false (normalizeChars x)) :=
    normalizeChars_of_invariants _ hy_cls hy_wh
  have hz_cls : ∀ c ∈ stripChars (squashRun false (normalizeChars x)),
      invisChar c = false ∧ dashChar c = false ∧ quoteSrcChar c = false :=
    fun c hc => hy_cls c (mem_squashRun _ false c (mem_stripChars hc))
  have hz_dd : List.Chain' ddRel (stripChars (squashRun false (normalizeChars x))) :=
    chain'_stripChars (fun a b h => ddRel_symm h) _ (noDD_squashRun _ false)
  have hz_wh : List.Chain' whRel (stripChars (squashRun false (normalizeChars x))) :=
    chain'_stripChars (fun a b h => whRel_symm h) _
      (noWH_squashRun _ false hy_wh)
  rw [hz_eq]
  exact normalizeChars_id _ hz_cls hz_dd hz_wh
    (head_stripChars _) (getLast_stripChars _)

/-- C3 (amended): `normalize_text` is not idempotent, but a second
application reaches a fixed point: for every string,
`normalize(normalize(normalize(x))) = normalize(normalize(x))`. -/
theorem normalize_text_double_application_fixed (s : String) :
    normalize_text (normalize_text (normalize_text s)) =
      normalize_text (normalize_text s) := by
  unfold normalize_text
  rw [show (String.mk (normalizeChars s.data)).data = normalizeChars s.data from rfl]
  rw [show (String.mk (normalizeChars (normalizeChars s.data))).data =
    normalizeChars (normalizeChars s.data) from rfl]
  rw [normalizeChars_double_fixed]

/-- C3 counterexample: `normalize("a- -b") = "a--b"` but
`normalize("a--b") = "a-b"`, so one application is not a fixed point: the
whitespace-around-hyphen deletion creates a new hyphen run that only the
next application collapses. -/
theorem normalize_text_not_idempotent :
    normalize_text "a- -b" = "a--b" ∧
    ¬(normalize_text (normalize_text "a- -b") = normalize_text "a- -b") := by
  constructor
  · decide
  · decide

end NNN
